import Mathlib

/-!
# I2C EEPROM driver (`src/HAL/shared/eeprom_i2c.cpp`)

A shallow embedding of the four driver operations `eeprom_write_byte`,
`eeprom_update_block`, `eeprom_read_byte` and `eeprom_read_block` as state
passing over an explicit model of the `Wire` bus transport, followed by
theorems about the byte round trip, the block round trip, write suppression,
address framing, the post-write delay and the 8-bit loop counter.

Conventions.
* A byte is a `Nat`; every conversion to `uint8_t` of the source is an
  explicit `% 256`.
* Caller memory reached through a pointer is a function from the offset to
  the byte stored there (`Mem`), so `ptr[c]` is `ptr c`.
* Every call the driver makes on the transport, and every `delay`, is
  appended to a log, so that the bus trace of an operation can be inspected.
* The two loops take fuel.  An operation either `returned` or is still
  `running` when the fuel is exhausted; in both cases the state reached is
  kept, so that trace properties can be stated for every prefix of an
  execution.
-/

namespace EepromI2c

/-! ## Data model -/

/-- Caller memory seen through a pointer: the byte at each offset. -/
abbrev Mem := Nat → Nat

/-- One entry of the call log: a call on the bus transport, or a delay. -/
inductive Event where
  | begin
  | beginTransmission (address : Nat)
  | write (data : Nat)
  | endTransmission
  | requestFrom (address : Nat) (quantity : Nat)
  | available
  | read
  | delay (ms : Nat)
  deriving DecidableEq

/-- The device behind the bus: what it does with a completed write
transaction (`onWrite state address payload`) and which bytes it delivers on
a read request (`onRead state address quantity`). -/
structure Device (σ : Type) where
  onWrite : σ → Nat → List Nat → σ
  onRead : σ → Nat → Nat → List Nat × σ

/-- Modelled from the spec: the state of the bus transport (`Wire`, an
external library that is not part of the source file): the device state, the
address and payload of the transaction being assembled, the bytes received
by the last read request and not yet consumed, and the log of calls. -/
structure Wire (σ : Type) where
  dev : σ
  txAddress : Nat
  txBuffer : List Nat
  rxBuffer : List Nat
  log : List Event

/-- Result of running an operation that contains a loop with some fuel. -/
inductive Outcome (α : Type) where
  | returned (x : α)
  | running (x : α)

/-- The state carried by an outcome, finished or not. -/
def Outcome.val {α : Type} : Outcome α → α
  | .returned x => x
  | .running x => x

/-- Whether the operation returned. -/
def Outcome.isReturned {α : Type} : Outcome α → Bool
  | .returned _ => true
  | .running _ => false

/-! ## The bus transport

Modelled from the spec (section 6): begin-session, open-transaction,
write-byte-to-transaction, close-transaction, request-read,
byte-available-predicate, read-next-byte.  The transport's buffer capacity
(32 bytes in the usual library) is not modelled: the transport records
whatever the driver hands to it, like the mock transport of the spec. -/

/-- Modelled from the spec: `Wire.begin()`, begin-session; it resets the
buffers. -/
def Wire.begin {σ : Type} (w : Wire σ) : Wire σ :=
  { w with txBuffer := [], rxBuffer := [], log := w.log ++ [Event.begin] }

/-- Modelled from the spec: `Wire.beginTransmission(address)`,
open-transaction. -/
def Wire.beginTransmission {σ : Type} (address : Nat) (w : Wire σ) : Wire σ :=
  { w with txAddress := address, txBuffer := [],
           log := w.log ++ [Event.beginTransmission address] }

/-- Modelled from the spec: `Wire.write(data)`, write-byte-to-transaction;
the argument is converted to `uint8_t`. -/
def Wire.write {σ : Type} (data : Nat) (w : Wire σ) : Wire σ :=
  { w with txBuffer := w.txBuffer ++ [data % 256],
           log := w.log ++ [Event.write (data % 256)] }

/-- Modelled from the spec: `Wire.write(data, quantity)`, which writes
`data[0]`, ..., `data[quantity-1]` one byte at a time. -/
def Wire.writeBytes {σ : Type} (data : Mem) : Nat → Wire σ → Wire σ
  | 0, w => w
  | q + 1, w => Wire.write (data q) (Wire.writeBytes data q w)

/-- Modelled from the spec: `Wire.endTransmission()`, close-transaction; the
assembled payload goes to the device. -/
def Wire.endTransmission {σ : Type} (D : Device σ) (w : Wire σ) : Wire σ :=
  { w with dev := D.onWrite w.dev w.txAddress w.txBuffer, txBuffer := [],
           log := w.log ++ [Event.endTransmission] }

/-- Modelled from the spec: `Wire.requestFrom(address, quantity)`,
request-read; at most `quantity` of the bytes the device delivers are
received. -/
def Wire.requestFrom {σ : Type} (D : Device σ) (address quantity : Nat)
    (w : Wire σ) : Wire σ :=
  { w with dev := (D.onRead w.dev address quantity).2,
           rxBuffer := (D.onRead w.dev address quantity).1.take quantity,
           log := w.log ++ [Event.requestFrom address quantity] }

/-- Modelled from the spec: `Wire.available()`, the number of received bytes
not yet read. -/
def Wire.available {σ : Type} (w : Wire σ) : Nat × Wire σ :=
  (w.rxBuffer.length, { w with log := w.log ++ [Event.available] })

/-- Modelled from the spec: `Wire.read()`, read-next-byte.  On an empty
buffer the library returns `-1`; every use in the driver converts the result
to `uint8_t`, so the model returns the low byte `255` there (the driver never
reads from an empty buffer). -/
def Wire.read {σ : Type} (w : Wire σ) : Nat × Wire σ :=
  match w.rxBuffer with
  | [] => (255, { w with log := w.log ++ [Event.read] })
  | b :: rest => (b, { w with rxBuffer := rest, log := w.log ++ [Event.read] })

/-- The blocking `delay(ms)` of the platform. -/
def delay {σ : Type} (ms : Nat) (w : Wire σ) : Wire σ :=
  { w with log := w.log ++ [Event.delay ms] }

/-! ## The driver -/

/-- Source: `#define EEPROM_WRITE_DELAY 5` (the default). -/
def EEPROM_WRITE_DELAY : Nat := 5

/-- Source: `#define EEPROM_DEVICE_ADDRESS 0x50` (the default). -/
def EEPROM_DEVICE_ADDRESS : Nat := 0x50

/-- Modelled from the spec: the macro `I2C_ADDRESS` is declared outside the
source file; the spec gives the device address as the constant `0x50`, so the
macro is the identity. -/
def I2C_ADDRESS (a : Nat) : Nat := a

/-- Source: `static constexpr uint8_t eeprom_device_address`. -/
def eeprom_device_address : Nat := I2C_ADDRESS EEPROM_DEVICE_ADDRESS % 256

/-- Source: `static void eeprom_init()`, which calls `Wire.begin()`. -/
def eeprom_init {σ : Type} (w : Wire σ) : Wire σ := Wire.begin w

/-- Source: `void eeprom_write_byte(uint8_t *pos, unsigned char value)`; `pos`
is the storage address. -/
def eeprom_write_byte {σ : Type} (D : Device σ) (pos value : Nat)
    (w : Wire σ) : Wire σ :=
  let eeprom_address := pos
  let w := Wire.beginTransmission eeprom_device_address w
  let w := Wire.write (eeprom_address >>> 8) w
  let w := Wire.write (eeprom_address &&& 0xFF) w
  let w := Wire.write value w
  let w := Wire.endTransmission D w
  delay EEPROM_WRITE_DELAY w

/-- The loop of `eeprom_update_block`:
`for (byte c = 0; c < n && Wire.available(); c++) flag |= Wire.read() ^ ptr[c];`
with the 8-bit counter `c` and the 8-bit `flag`. -/
def eeprom_update_block_loop {σ : Type} (n : Nat) (ptr : Mem) :
    Nat → Nat → Nat → Wire σ → Outcome (Nat × Wire σ)
  | 0, _, flag, w => Outcome.running (flag, w)
  | fuel + 1, c, flag, w =>
    if c < n then
      if (Wire.available w).1 ≠ 0 then
        eeprom_update_block_loop n ptr fuel ((c + 1) % 256)
          ((flag ||| ((Wire.read (Wire.available w).2).1 ^^^ ptr c)) % 256)
          (Wire.read (Wire.available w).2).2
      else Outcome.returned (flag, (Wire.available w).2)
    else Outcome.returned (flag, w)

/-- Source: `void eeprom_update_block(const void *pos, void *__dst, size_t n)`;
`pos` is the source buffer, `dst` the storage address; the read request is
for `(byte)n` bytes. -/
def eeprom_update_block {σ : Type} (D : Device σ) (fuel : Nat) (pos : Mem)
    (dst n : Nat) (w : Wire σ) : Outcome (Wire σ) :=
  let eeprom_address := dst
  let w := eeprom_init w
  let w := Wire.beginTransmission eeprom_device_address w
  let w := Wire.write (eeprom_address >>> 8) w
  let w := Wire.write (eeprom_address &&& 0xFF) w
  let w := Wire.endTransmission D w
  let w := Wire.requestFrom D eeprom_device_address (n % 256) w
  match eeprom_update_block_loop n pos fuel 0 0 w with
  | Outcome.running (_, w) => Outcome.running w
  | Outcome.returned (flag, w) =>
    if flag ≠ 0 then
      let w := Wire.beginTransmission eeprom_device_address w
      let w := Wire.write (eeprom_address >>> 8) w
      let w := Wire.write (eeprom_address &&& 0xFF) w
      let w := Wire.writeBytes pos n w
      let w := Wire.endTransmission D w
      Outcome.returned (delay EEPROM_WRITE_DELAY w)
    else Outcome.returned w

/-- Source: `uint8_t eeprom_read_byte(uint8_t *pos)`; the result is converted to
`uint8_t`. -/
def eeprom_read_byte {σ : Type} (D : Device σ) (pos : Nat) (w : Wire σ) :
    Nat × Wire σ :=
  let eeprom_address := pos
  let w := Wire.beginTransmission eeprom_device_address w
  let w := Wire.write (eeprom_address >>> 8) w
  let w := Wire.write (eeprom_address &&& 0xFF) w
  let w := Wire.endTransmission D w
  let w := Wire.requestFrom D eeprom_device_address 1 w
  if (Wire.available w).1 ≠ 0 then
    ((Wire.read (Wire.available w).2).1 % 256, (Wire.read (Wire.available w).2).2)
  else (0xFF, (Wire.available w).2)

/-- The loop of `eeprom_read_block`:
`for (byte c = 0; c < n; c++) if (Wire.available()) *((uint8_t*)pos + c) = Wire.read();`
with the 8-bit counter `c`; the state is the destination memory and the
transport. -/
def eeprom_read_block_loop {σ : Type} (n : Nat) :
    Nat → Nat → Mem → Wire σ → Outcome (Mem × Wire σ)
  | 0, _, pos, w => Outcome.running (pos, w)
  | fuel + 1, c, pos, w =>
    if c < n then
      if (Wire.available w).1 ≠ 0 then
        eeprom_read_block_loop n fuel ((c + 1) % 256)
          (Function.update pos c ((Wire.read (Wire.available w).2).1 % 256))
          (Wire.read (Wire.available w).2).2
      else eeprom_read_block_loop n fuel ((c + 1) % 256) pos (Wire.available w).2
    else Outcome.returned (pos, w)

/-- Source: `void eeprom_read_block(void* pos, const void *__dst, size_t n)`;
`pos` is the destination buffer, `dst` the storage address; the read request
is for `(byte)n` bytes. -/
def eeprom_read_block {σ : Type} (D : Device σ) (fuel : Nat) (pos : Mem)
    (dst n : Nat) (w : Wire σ) : Outcome (Mem × Wire σ) :=
  let eeprom_address := dst
  let w := eeprom_init w
  let w := Wire.beginTransmission eeprom_device_address w
  let w := Wire.write (eeprom_address >>> 8) w
  let w := Wire.write (eeprom_address &&& 0xFF) w
  let w := Wire.endTransmission D w
  let w := Wire.requestFrom D eeprom_device_address (n % 256) w
  eeprom_read_block_loop n fuel 0 pos w

/-! ## Devices used by the properties -/

/-- The simulated EEPROM: a linear byte memory and an address pointer. -/
structure Eeprom where
  mem : Nat → Nat
  ptr : Nat

/-- Store the bytes of a list at consecutive addresses from `p` on. -/
def Eeprom.store (mem : Nat → Nat) : Nat → List Nat → Nat → Nat
  | _, [] => mem
  | p, b :: bs => Eeprom.store (Function.update mem p b) (p + 1) bs

/-- The simulated device of the round-trip properties.  It answers only to
the driver's device address.  A write transaction `[MSB, LSB, data...]` sets
the address pointer to `MSB * 256 + LSB` and stores the data bytes from
there on (a transaction `[MSB, LSB]` only sets the pointer); a read request
is answered in full with the bytes from the pointer on. -/
def simEeprom : Device Eeprom where
  onWrite s address payload :=
    if address = eeprom_device_address then
      match payload with
      | msb :: lsb :: data =>
        { mem := Eeprom.store s.mem (msb * 256 + lsb) data,
          ptr := msb * 256 + lsb + data.length }
      | _ => s
    else s
  onRead s address quantity :=
    if address = eeprom_device_address then
      ((List.range quantity).map (fun i => s.mem (s.ptr + i)),
       { s with ptr := s.ptr + quantity })
    else ([], s)

/-- A mock device that ignores writes and answers every read request with
the fixed bytes `r`. -/
def mockDevice (r : List Nat) : Device Unit where
  onWrite s _ _ := s
  onRead s _ _ := (r, s)

/-- A transport that has not been used yet. -/
def Wire.fresh {σ : Type} (dev : σ) : Wire σ :=
  { dev := dev, txAddress := 0, txBuffer := [], rxBuffer := [], log := [] }

/-! ## Reading the log -/

/-- The events an operation appended to the log of `w`, given the state
`w1` it reached. -/
def issued {σ : Type} (w w1 : Wire σ) : List Event :=
  w1.log.drop w.log.length

/-- Events that put something on the bus or pause the driver; `begin`,
`available` and `read` only touch the transport's local buffers. -/
def Event.onBus : Event → Bool
  | Event.beginTransmission _ => true
  | Event.write _ => true
  | Event.endTransmission => true
  | Event.requestFrom _ _ => true
  | Event.delay _ => true
  | Event.begin => false
  | Event.available => false
  | Event.read => false

/-- The bus trace of a log. -/
def busTrace (log : List Event) : List Event := log.filter Event.onBus

/-- The bytes written by the `write` events at the head of a log. -/
def writesAfter : List Event → List Nat
  | Event.write b :: es => b :: writesAfter es
  | _ => []

/-- Every transaction opened in a log: the address given to
`beginTransmission` and the bytes transmitted after it. -/
def opened : List Event → List (Nat × List Nat)
  | [] => []
  | Event.beginTransmission a :: es => (a, writesAfter es) :: opened es
  | _ :: es => opened es

/-- The data-carrying write transactions of a log: those that transmit more
than the two address bytes. -/
def dataWrites (log : List Event) : List (Nat × List Nat) :=
  (opened log).filter (fun t => decide (2 < t.2.length))

/-- The `write` events of `Wire.write(data, n)`. -/
def blockWrites (data : Mem) (n : Nat) : List Event :=
  (List.range n).map (fun i => Event.write (data i % 256))

/-- The state of the transport after the driver has sent the address
transaction for `a` and a read request for `q` bytes. -/
def requested {σ : Type} (D : Device σ) (a q : Nat) (w : Wire σ) : Wire σ :=
  Wire.requestFrom D eeprom_device_address q
    (Wire.endTransmission D
      (Wire.write (a &&& 0xFF)
        (Wire.write (a >>> 8)
          (Wire.beginTransmission eeprom_device_address w))))

/-- State of the scan for the post-write delay: the number of bytes written
in the transaction being assembled, whether a data-carrying write has been
closed with no write-cycle delay since, and whether the log is fine so far. -/
structure Scan where
  cnt : Nat
  pending : Bool
  ok : Bool
  deriving DecidableEq

/-- One step of the scan: a transaction or read request issued while a write
is pending is a violation; closing a transaction with more than the two
address bytes makes a write pending; a delay of `EEPROM_WRITE_DELAY` clears
it. -/
def Scan.step (s : Scan) : Event → Scan
  | Event.beginTransmission _ => { cnt := 0, pending := s.pending, ok := s.ok && !s.pending }
  | Event.write _ => { s with cnt := s.cnt + 1 }
  | Event.endTransmission => { s with pending := s.pending || decide (2 < s.cnt) }
  | Event.requestFrom _ _ => { s with ok := s.ok && !s.pending }
  | Event.delay ms => { s with pending := s.pending && !decide (ms = EEPROM_WRITE_DELAY) }
  | Event.begin => s
  | Event.available => s
  | Event.read => s

/-- Scan a log from a given scan state. -/
def Scan.run (s : Scan) (log : List Event) : Scan := log.foldl Scan.step s

/-- The post-write delay invariant of a log: no transaction or read request
is issued between a data-carrying write transaction and the delay of
`EEPROM_WRITE_DELAY` that follows it, and no write is left pending. -/
def postWriteDelayed (log : List Event) : Prop :=
  (Scan.run { cnt := 0, pending := false, ok := true } log).ok = true ∧
  (Scan.run { cnt := 0, pending := false, ok := true } log).pending = false

/-- The events of the address transaction for `a`: open, most significant
byte, least significant byte, close. -/
def setPointer (a : Nat) : List Event :=
  [Event.beginTransmission eeprom_device_address, Event.write ((a >>> 8) % 256),
   Event.write ((a &&& 0xFF) % 256), Event.endTransmission]

/-- The events of the write transaction of `eeprom_update_block`: open, the
two address bytes, the `n` bytes of the source buffer, close. -/
def writeTransaction (pos : Mem) (a n : Nat) : List Event :=
  [Event.beginTransmission eeprom_device_address, Event.write ((a >>> 8) % 256),
   Event.write ((a &&& 0xFF) % 256)] ++ blockWrites pos n ++ [Event.endTransmission]

/-! ## The loops as functions of the received bytes -/

/-- The flag the comparison loop of `eeprom_update_block` ends with, from
the counter `c` and flag it starts with and the bytes waiting in the receive
buffer. -/
def dirtyFlag (n : Nat) (ptr : Mem) : Nat → Nat → List Nat → Nat
  | _, flag, [] => flag
  | c, flag, r :: rs =>
    if c < n then dirtyFlag n ptr (c + 1) ((flag ||| (r ^^^ ptr c)) % 256) rs else flag

/-- The destination memory the copy loop of `eeprom_read_block` ends with,
from the counter `c` and memory it starts with and the bytes waiting in the
receive buffer. -/
def received (n : Nat) : Nat → Mem → List Nat → Mem
  | _, pos, [] => pos
  | c, pos, r :: rs =>
    if c < n then received n (c + 1) (Function.update pos c (r % 256)) rs else pos

/-- The write branch of `eeprom_update_block`, from the state `w` the
comparison loop ends in. -/
def commit {σ : Type} (D : Device σ) (pos : Mem) (a n : Nat) (w : Wire σ) : Wire σ :=
  delay EEPROM_WRITE_DELAY
    (Wire.endTransmission D
      (Wire.writeBytes pos n
        (Wire.write (a &&& 0xFF)
          (Wire.write (a >>> 8)
            (Wire.beginTransmission eeprom_device_address w)))))

/-- A scan state in which nothing is wrong and no write is pending. -/
def Scan.good (s : Scan) : Prop := s.ok = true ∧ s.pending = false

/-- A transaction is framed for the storage address `a`: it is addressed to
the device and its first two transmitted bytes are `a >> 8` and `a & 0xFF`. -/
def framed (a : Nat) (t : Nat × List Nat) : Prop :=
  t.1 = eeprom_device_address ∧ ∃ rest, t.2 = (a >>> 8) :: (a &&& 0xFF) :: rest

/-- A log opens at least one transaction and all of them are framed for `a`. -/
def allFramed (a : Nat) (log : List Event) : Prop :=
  opened log ≠ [] ∧ ∀ t ∈ opened log, framed a t

/-! ## Sequences of calls -/

/-- A call of one of the four operations, with its arguments. -/
inductive Call where
  | write_byte (pos value : Nat)
  | read_byte (pos : Nat)
  | update_block (pos : Mem) (dst n : Nat)
  | read_block (pos : Mem) (dst n : Nat)

/-- Run one call; the outcome carries the transport state. -/
def Call.run {σ : Type} (D : Device σ) (fuel : Nat) (w : Wire σ) :
    Call → Outcome (Wire σ)
  | Call.write_byte pos value => Outcome.returned (eeprom_write_byte D pos value w)
  | Call.read_byte pos => Outcome.returned (eeprom_read_byte D pos w).2
  | Call.update_block pos dst n => eeprom_update_block D fuel pos dst n w
  | Call.read_block pos dst n =>
    match eeprom_read_block D fuel pos dst n w with
    | Outcome.returned x => Outcome.returned x.2
    | Outcome.running x => Outcome.running x.2

/-- Run a sequence of calls one after the other; a call that does not return
keeps the caller from issuing the next one. -/
def runCalls {σ : Type} (D : Device σ) (fuel : Nat) : List Call → Wire σ → Wire σ
  | [], w => w
  | c :: cs, w =>
    match Call.run D fuel w c with
    | Outcome.returned w1 => runCalls D fuel cs w1
    | Outcome.running w1 => w1


/-! ## Arithmetic of the address bytes and of the flag -/

theorem address_bytes (a : Nat) (ha : a < 65536) :
    (a >>> 8) % 256 * 256 + (a &&& 0xFF) % 256 = a := by
  have h1 : a &&& 0xFF = a % 256 := Nat.and_pow_two_sub_one_eq_mod a 8
  rw [h1, Nat.shiftRight_eq_div_pow]
  omega

/-! ## The two loops -/

theorem busTrace_append (xs ys : List Event) :
    busTrace (xs ++ ys) = busTrace xs ++ busTrace ys := by
  simp [busTrace]

theorem update_loop_log {σ : Type} (n : Nat) (ptr : Mem) :
    ∀ (fuel c flag : Nat) (w : Wire σ), ∃ ev,
      (eeprom_update_block_loop n ptr fuel c flag w).val.2.log = w.log ++ ev ∧
      busTrace ev = [] := by
  intro fuel
  induction fuel with
  | zero => intro c flag w; exact ⟨[], by simp [eeprom_update_block_loop, Outcome.val], rfl⟩
  | succ fuel ih =>
    intro c flag w
    unfold eeprom_update_block_loop
    by_cases hc : c < n
    · by_cases ha : (Wire.available w).1 ≠ 0
      · obtain ⟨ev, h1, h2⟩ := ih ((c + 1) % 256)
          ((flag ||| ((Wire.read (Wire.available w).2).1 ^^^ ptr c)) % 256)
          (Wire.read (Wire.available w).2).2
        refine ⟨[Event.available, Event.read] ++ ev, ?_, ?_⟩
        · rw [if_pos hc, if_pos ha, h1]
          simp only [Wire.read, Wire.available]
          split <;> simp
        · rw [busTrace_append, h2]; rfl
      · refine ⟨[Event.available], ?_, rfl⟩
        rw [if_pos hc, if_neg ha]
        simp [Outcome.val, Wire.available]
    · exact ⟨[], by rw [if_neg hc]; simp [Outcome.val], rfl⟩

theorem update_loop_dev {σ : Type} (n : Nat) (ptr : Mem) :
    ∀ (fuel c flag : Nat) (w : Wire σ),
      (eeprom_update_block_loop n ptr fuel c flag w).val.2.dev = w.dev := by
  intro fuel
  induction fuel with
  | zero => intro c flag w; simp [eeprom_update_block_loop, Outcome.val]
  | succ fuel ih =>
    intro c flag w
    unfold eeprom_update_block_loop
    by_cases hc : c < n
    · by_cases ha : (Wire.available w).1 ≠ 0
      · rw [if_pos hc, if_pos ha, ih]
        simp only [Wire.read, Wire.available]
        split <;> simp
      · rw [if_pos hc, if_neg ha]
        simp [Outcome.val, Wire.available]
    · rw [if_neg hc]; simp [Outcome.val]


theorem or_eq_zero_iff (x y : Nat) : x ||| y = 0 ↔ x = 0 ∧ y = 0 := by
  constructor
  · intro h
    have key : ∀ i, x.testBit i = false ∧ y.testBit i = false := by
      intro i
      have := congrArg (fun z => Nat.testBit z i) h
      simpa using this
    exact ⟨Nat.eq_of_testBit_eq (fun i => by simp [(key i).1]),
      Nat.eq_of_testBit_eq (fun i => by simp [(key i).2])⟩
  · rintro ⟨rfl, rfl⟩; rfl

theorem flag_step_eq_zero (flag r p : Nat) (hf : flag < 256) (hr : r < 256) (hp : p < 256) :
    (flag ||| (r ^^^ p)) % 256 = 0 ↔ flag = 0 ∧ r = p := by
  have hx : r ^^^ p < 2 ^ 8 := Nat.xor_lt_two_pow (by simpa using hr) (by simpa using hp)
  have ho : flag ||| (r ^^^ p) < 2 ^ 8 := Nat.or_lt_two_pow (by simpa using hf) hx
  rw [Nat.mod_eq_of_lt (by simpa using ho), or_eq_zero_iff, Nat.xor_eq_zero]

theorem dirtyFlag_eq_zero_iff (n : Nat) (ptr : Mem) (hp : ∀ i, i < n → ptr i < 256) :
    ∀ (rx : List Nat) (c flag : Nat), flag < 256 → (∀ r ∈ rx, r < 256) →
      (dirtyFlag n ptr c flag rx = 0 ↔
        flag = 0 ∧ ∀ i, i < rx.length → c + i < n → rx.getD i 0 = ptr (c + i)) := by
  intro rx
  induction rx with
  | nil => intro c flag _ _; simp [dirtyFlag]
  | cons r rs ih =>
    intro c flag hf hr
    unfold dirtyFlag
    by_cases hc : c < n
    · have hr0 : r < 256 := hr r (List.mem_cons_self _ _)
      rw [if_pos hc, ih (c + 1) _ (Nat.mod_lt _ (by norm_num))
        (fun x hx => hr x (List.mem_cons_of_mem _ hx)),
        flag_step_eq_zero flag r (ptr c) hf hr0 (hp c hc)]
      constructor
      · rintro ⟨⟨h0, h1⟩, h2⟩
        refine ⟨h0, ?_⟩
        intro i hi hci
        cases i with
        | zero => simpa using h1
        | succ i =>
          have := h2 i (by simpa using hi) (by omega)
          simpa [Nat.add_assoc, Nat.add_comm 1 i] using this
      · rintro ⟨h0, h2⟩
        refine ⟨⟨h0, by simpa using h2 0 (by simp) (by simpa using hc)⟩, ?_⟩
        intro i hi hci
        have := h2 (i + 1) (by simpa using hi) (by omega)
        simpa [Nat.add_assoc, Nat.add_comm 1 i] using this
    · rw [if_neg hc]
      constructor
      · intro h0
        exact ⟨h0, fun i _ hci => absurd hci (by omega)⟩
      · exact fun h => h.1

theorem dirtyFlag_same (n : Nat) (ptr : Mem) :
    ∀ (rx : List Nat) (c : Nat),
      (∀ i, i < rx.length → c + i < n → rx.getD i 0 = ptr (c + i)) →
      dirtyFlag n ptr c 0 rx = 0 := by
  intro rx
  induction rx with
  | nil => intro c _; simp [dirtyFlag]
  | cons r rs ih =>
    intro c h
    unfold dirtyFlag
    by_cases hc : c < n
    · have h0 : r = ptr c := by simpa using h 0 (by simp) (by simpa using hc)
      rw [if_pos hc, h0]
      simp only [Nat.xor_self, Nat.or_zero, Nat.zero_mod]
      apply ih
      intro i hi hci
      have := h (i + 1) (by simpa using hi) (by omega)
      simpa [Nat.add_assoc, Nat.add_comm 1 i] using this
    · rw [if_neg hc]

theorem update_loop_returned {σ : Type} (n : Nat) (ptr : Mem) :
    ∀ (fuel c flag : Nat) (w : Wire σ), c + w.rxBuffer.length ≤ 255 →
      w.rxBuffer.length < fuel →
      ∃ w1, eeprom_update_block_loop n ptr fuel c flag w =
        Outcome.returned (dirtyFlag n ptr c flag w.rxBuffer, w1) := by
  intro fuel
  induction fuel with
  | zero => intro c flag w _ h; exact absurd h (Nat.not_lt_zero _)
  | succ fuel ih =>
    intro c flag w hlen hfuel
    obtain ⟨dev, ta, tb, rx, log⟩ := w
    unfold eeprom_update_block_loop
    by_cases hc : c < n
    · cases rx with
      | nil => exact ⟨_, by simp [hc, Wire.available, dirtyFlag]; rfl⟩
      | cons r rs =>
        simp only [List.length_cons] at hlen hfuel
        have hmod : (c + 1) % 256 = c + 1 := Nat.mod_eq_of_lt (by omega)
        obtain ⟨w1, h1⟩ := ih (c + 1) ((flag ||| (r ^^^ ptr c)) % 256)
          { dev := dev, txAddress := ta, txBuffer := tb, rxBuffer := rs,
            log := log ++ [Event.available] ++ [Event.read] } (by simpa using by omega)
          (by simpa using by omega)
        refine ⟨w1, ?_⟩
        simp only [Wire.available, Wire.read, List.length_cons, hc, if_true, hmod, dirtyFlag]
        simpa using h1
    · cases rx with
      | nil => exact ⟨_, by simp [hc, dirtyFlag]; rfl⟩
      | cons r rs => exact ⟨_, by simp [hc, dirtyFlag]; rfl⟩


theorem read_loop_log {σ : Type} (n : Nat) :
    ∀ (fuel c : Nat) (pos : Mem) (w : Wire σ), ∃ ev,
      (eeprom_read_block_loop n fuel c pos w).val.2.log = w.log ++ ev ∧
      busTrace ev = [] := by
  intro fuel
  induction fuel with
  | zero => intro c pos w; exact ⟨[], by simp [eeprom_read_block_loop, Outcome.val], rfl⟩
  | succ fuel ih =>
    intro c pos w
    unfold eeprom_read_block_loop
    by_cases hc : c < n
    · by_cases ha : (Wire.available w).1 ≠ 0
      · obtain ⟨ev, h1, h2⟩ := ih ((c + 1) % 256)
          (Function.update pos c ((Wire.read (Wire.available w).2).1 % 256))
          (Wire.read (Wire.available w).2).2
        refine ⟨[Event.available, Event.read] ++ ev, ?_, ?_⟩
        · rw [if_pos hc, if_pos ha, h1]
          simp only [Wire.read, Wire.available]
          split <;> simp
        · rw [busTrace_append, h2]; rfl
      · obtain ⟨ev, h1, h2⟩ := ih ((c + 1) % 256) pos (Wire.available w).2
        refine ⟨[Event.available] ++ ev, ?_, ?_⟩
        · rw [if_pos hc, if_neg ha, h1]
          simp [Wire.available]
        · rw [busTrace_append, h2]; rfl
    · exact ⟨[], by rw [if_neg hc]; simp [Outcome.val], rfl⟩

theorem read_loop_returned {σ : Type} (n : Nat) (hn : n ≤ 255) :
    ∀ (fuel c : Nat) (pos : Mem) (w : Wire σ), c ≤ n → n - c < fuel →
      ∃ w1 ev, eeprom_read_block_loop n fuel c pos w =
          Outcome.returned (received n c pos w.rxBuffer, w1) ∧
        w1.dev = w.dev ∧ w1.log = w.log ++ ev ∧ busTrace ev = [] ∧
        ev.count Event.available = n - c := by
  intro fuel
  induction fuel with
  | zero => intro c pos w _ h; exact absurd h (Nat.not_lt_zero _)
  | succ fuel ih =>
    intro c pos w hcn hfuel
    obtain ⟨dev, ta, tb, rx, log⟩ := w
    unfold eeprom_read_block_loop
    by_cases hc : c < n
    · have hmod : (c + 1) % 256 = c + 1 := Nat.mod_eq_of_lt (by omega)
      cases rx with
      | nil =>
        obtain ⟨w1, ev, h1, h2, h3, h4, h5⟩ := ih (c + 1) pos
          { dev := dev, txAddress := ta, txBuffer := tb, rxBuffer := [],
            log := log ++ [Event.available] } (by omega) (by omega)
        refine ⟨w1, [Event.available] ++ ev, ?_, h2, ?_, ?_, ?_⟩
        · simp only [Wire.available, List.length_nil, hc, if_true, hmod]
          simpa [received] using h1
        · simpa using h3
        · rw [busTrace_append, h4]; rfl
        · rw [List.count_append, h5]; simp; omega
      | cons r rs =>
        obtain ⟨w1, ev, h1, h2, h3, h4, h5⟩ := ih (c + 1) (Function.update pos c (r % 256))
          { dev := dev, txAddress := ta, txBuffer := tb, rxBuffer := rs,
            log := log ++ [Event.available] ++ [Event.read] } (by omega) (by omega)
        refine ⟨w1, [Event.available, Event.read] ++ ev, ?_, h2, ?_, ?_, ?_⟩
        · simp only [Wire.available, Wire.read, List.length_cons, hc, if_true, hmod, received]
          simpa using h1
        · simpa using h3
        · rw [busTrace_append, h4]; rfl
        · rw [List.count_append, h5]; simp; omega
    · have hcn2 : n - c = 0 := by omega
      refine ⟨_, [], ?_, rfl, by simp, rfl, by simp [hcn2]⟩
      cases rx with
      | nil => simp [hc, received]
      | cons r rs => simp [hc, received]

theorem read_loop_running {σ : Type} (n : Nat) (hn : 256 ≤ n) :
    ∀ (fuel c : Nat) (pos : Mem) (w : Wire σ), c < 256 →
      (eeprom_read_block_loop n fuel c pos w).isReturned = false := by
  intro fuel
  induction fuel with
  | zero => intro c pos w _; rfl
  | succ fuel ih =>
    intro c pos w hc
    have hcn : c < n := by omega
    unfold eeprom_read_block_loop
    rw [if_pos hcn]
    split
    · exact ih _ _ _ (Nat.mod_lt _ (by norm_num))
    · exact ih _ _ _ (Nat.mod_lt _ (by norm_num))

theorem received_apply (n : Nat) :
    ∀ (rx : List Nat) (c : Nat) (pos : Mem) (i : Nat),
      received n c pos rx i =
        if c ≤ i ∧ i < n ∧ i - c < rx.length then rx.getD (i - c) 0 % 256 else pos i := by
  intro rx
  induction rx with
  | nil => intro c pos i; simp [received]
  | cons r rs ih =>
    intro c pos i
    unfold received
    by_cases hc : c < n
    · rw [if_pos hc, ih]
      by_cases hi : i = c
      · subst hi
        simp [hc]
      · by_cases hlt : c + 1 ≤ i
        · have e : i - c = (i - (c + 1)) + 1 := by omega
          have h1 : (c ≤ i ∧ i < n ∧ i - c < (r :: rs).length) ↔
              (c + 1 ≤ i ∧ i < n ∧ i - (c + 1) < rs.length) := by
            simp only [List.length_cons]; omega
          rw [if_congr h1 rfl rfl, e, List.getD_cons_succ, Function.update_noteq hi]
        · have h1 : ¬ (c + 1 ≤ i ∧ i < n ∧ i - (c + 1) < rs.length) := by omega
          have h2 : ¬ (c ≤ i ∧ i < n ∧ i - c < (r :: rs).length) := by omega
          rw [if_neg h1, if_neg h2, Function.update_noteq hi]
    · rw [if_neg hc]
      have h2 : ¬ (c ≤ i ∧ i < n ∧ i - c < (r :: rs).length) := by omega
      rw [if_neg h2]


/-! ## The operations, event by event -/

theorem requested_log {σ : Type} (D : Device σ) (a q : Nat) (w : Wire σ) :
    (requested D a q w).log =
      w.log ++ (setPointer a ++ [Event.requestFrom eeprom_device_address q]) := by
  simp [requested, setPointer, Wire.requestFrom, Wire.endTransmission, Wire.write,
    Wire.beginTransmission]

theorem requested_rx_length {σ : Type} (D : Device σ) (a q : Nat) (w : Wire σ) :
    (requested D a q w).rxBuffer.length ≤ q := by
  simp only [requested, Wire.requestFrom]
  exact List.length_take_le _ _

theorem writeBytes_log {σ : Type} (data : Mem) :
    ∀ (q : Nat) (w : Wire σ), (Wire.writeBytes data q w).log = w.log ++ blockWrites data q := by
  intro q
  induction q with
  | zero => intro w; simp [Wire.writeBytes, blockWrites]
  | succ q ih =>
    intro w
    simp [Wire.writeBytes, Wire.write, ih, blockWrites, List.range_succ]

theorem writeBytes_txBuffer {σ : Type} (data : Mem) :
    ∀ (q : Nat) (w : Wire σ), (Wire.writeBytes data q w).txBuffer =
      w.txBuffer ++ (List.range q).map (fun i => data i % 256) := by
  intro q
  induction q with
  | zero => intro w; simp [Wire.writeBytes]
  | succ q ih =>
    intro w
    simp [Wire.writeBytes, Wire.write, ih, List.range_succ]

theorem writeBytes_dev {σ : Type} (data : Mem) :
    ∀ (q : Nat) (w : Wire σ), (Wire.writeBytes data q w).dev = w.dev ∧
      (Wire.writeBytes data q w).txAddress = w.txAddress := by
  intro q
  induction q with
  | zero => intro w; simp [Wire.writeBytes]
  | succ q ih =>
    intro w
    simp [Wire.writeBytes, Wire.write, ih]

theorem commit_log {σ : Type} (D : Device σ) (pos : Mem) (a n : Nat) (w : Wire σ) :
    (commit D pos a n w).log =
      w.log ++ (writeTransaction pos a n ++ [Event.delay EEPROM_WRITE_DELAY]) := by
  simp [commit, delay, Wire.endTransmission, writeBytes_log, Wire.write,
    Wire.beginTransmission, writeTransaction]

theorem commit_dev {σ : Type} (D : Device σ) (pos : Mem) (a n : Nat) (w : Wire σ) :
    (commit D pos a n w).dev =
      D.onWrite w.dev eeprom_device_address
        ((a >>> 8) % 256 :: (a &&& 0xFF) % 256 :: (List.range n).map (fun i => pos i % 256)) := by
  simp [commit, delay, Wire.endTransmission, writeBytes_txBuffer, writeBytes_dev, Wire.write,
    Wire.beginTransmission]

theorem update_block_returned {σ : Type} (D : Device σ) (fuel : Nat) (pos : Mem)
    (a n : Nat) (w : Wire σ) (hf : n % 256 < fuel) :
    ∃ w1 ev, w1.dev = (requested D a (n % 256) (eeprom_init w)).dev ∧
      w1.log = (requested D a (n % 256) (eeprom_init w)).log ++ ev ∧ busTrace ev = [] ∧
      eeprom_update_block D fuel pos a n w =
        Outcome.returned
          (if dirtyFlag n pos 0 0 (requested D a (n % 256) (eeprom_init w)).rxBuffer ≠ 0
            then commit D pos a n w1 else w1) := by
  have hlen := requested_rx_length D a (n % 256) (eeprom_init w)
  have hn : n % 256 < 256 := Nat.mod_lt _ (by norm_num)
  obtain ⟨w1, h1⟩ := update_loop_returned n pos fuel 0 0
    (requested D a (n % 256) (eeprom_init w)) (by omega) (by omega)
  obtain ⟨ev, h2, h3⟩ := update_loop_log n pos fuel 0 0 (requested D a (n % 256) (eeprom_init w))
  have h4 := update_loop_dev n pos fuel 0 0 (requested D a (n % 256) (eeprom_init w))
  rw [h1] at h2 h4
  refine ⟨w1, ev, h4, h2, h3, ?_⟩
  show (match eeprom_update_block_loop n pos fuel 0 0
      (requested D a (n % 256) (eeprom_init w)) with
    | Outcome.running (_, w) => Outcome.running w
    | Outcome.returned (flag, w) =>
      if flag ≠ 0 then Outcome.returned (commit D pos a n w) else Outcome.returned w) = _
  rw [h1]
  simp only
  split <;> rfl

theorem update_block_log {σ : Type} (D : Device σ) (fuel : Nat) (pos : Mem)
    (a n : Nat) (w : Wire σ) :
    ∃ ev tail, (eeprom_update_block D fuel pos a n w).val.log =
        w.log ++ ([Event.begin] ++ setPointer a ++
          [Event.requestFrom eeprom_device_address (n % 256)] ++ ev ++ tail) ∧
      busTrace ev = [] ∧
      (tail = [] ∨ tail = writeTransaction pos a n ++ [Event.delay EEPROM_WRITE_DELAY]) := by
  obtain ⟨ev, h2, h3⟩ := update_loop_log n pos fuel 0 0 (requested D a (n % 256) (eeprom_init w))
  have hreq := requested_log D a (n % 256) (eeprom_init w)
  have hinit : (eeprom_init w).log = w.log ++ [Event.begin] := rfl
  have e : eeprom_update_block D fuel pos a n w =
    (match eeprom_update_block_loop n pos fuel 0 0
      (requested D a (n % 256) (eeprom_init w)) with
    | Outcome.running (_, w) => Outcome.running w
    | Outcome.returned (flag, w) =>
      if flag ≠ 0 then Outcome.returned (commit D pos a n w) else Outcome.returned w) := rfl
  rw [e]
  cases hl : eeprom_update_block_loop n pos fuel 0 0
      (requested D a (n % 256) (eeprom_init w)) with
  | running x =>
    rw [hl] at h2
    refine ⟨ev, [], ?_, h3, Or.inl rfl⟩
    simp only [Outcome.val] at h2 ⊢
    rw [h2, hreq, hinit]; simp
  | returned x =>
    rw [hl] at h2
    simp only [Outcome.val] at h2
    by_cases hflag : x.1 ≠ 0
    · refine ⟨ev, _, ?_, h3, Or.inr rfl⟩
      simp only [if_pos hflag, Outcome.val]
      rw [commit_log, h2, hreq, hinit]; simp
    · refine ⟨ev, [], ?_, h3, Or.inl rfl⟩
      simp only [if_neg hflag, Outcome.val]
      rw [h2, hreq, hinit]; simp

theorem read_block_log {σ : Type} (D : Device σ) (fuel : Nat) (pos : Mem)
    (a n : Nat) (w : Wire σ) :
    ∃ ev, (eeprom_read_block D fuel pos a n w).val.2.log =
        w.log ++ ([Event.begin] ++ setPointer a ++
          [Event.requestFrom eeprom_device_address (n % 256)] ++ ev) ∧
      busTrace ev = [] := by
  obtain ⟨ev, h2, h3⟩ := read_loop_log n fuel 0 pos (requested D a (n % 256) (eeprom_init w))
  have hreq := requested_log D a (n % 256) (eeprom_init w)
  have hinit : (eeprom_init w).log = w.log ++ [Event.begin] := rfl
  refine ⟨ev, ?_, h3⟩
  show (eeprom_read_block_loop n fuel 0 pos (requested D a (n % 256) (eeprom_init w))).val.2.log = _
  rw [h2, hreq, hinit]; simp

theorem write_byte_log {σ : Type} (D : Device σ) (a v : Nat) (w : Wire σ) :
    (eeprom_write_byte D a v w).log =
      w.log ++ [Event.beginTransmission eeprom_device_address, Event.write ((a >>> 8) % 256),
        Event.write ((a &&& 0xFF) % 256), Event.write (v % 256), Event.endTransmission,
        Event.delay EEPROM_WRITE_DELAY] := by
  simp [eeprom_write_byte, delay, Wire.endTransmission, Wire.write, Wire.beginTransmission]

theorem read_byte_eq {σ : Type} (D : Device σ) (a : Nat) (w : Wire σ) :
    eeprom_read_byte D a w =
      if (Wire.available (requested D a 1 w)).1 ≠ 0 then
        ((Wire.read (Wire.available (requested D a 1 w)).2).1 % 256,
          (Wire.read (Wire.available (requested D a 1 w)).2).2)
      else (0xFF, (Wire.available (requested D a 1 w)).2) := rfl

theorem read_byte_log {σ : Type} (D : Device σ) (a : Nat) (w : Wire σ) :
    (eeprom_read_byte D a w).2.log =
      w.log ++ (setPointer a ++ [Event.requestFrom eeprom_device_address 1] ++
        (Event.available :: if (requested D a 1 w).rxBuffer = [] then [] else [Event.read])) := by
  rw [read_byte_eq]
  have hreq := requested_log D a 1 w
  cases hrx : (requested D a 1 w).rxBuffer with
  | nil => simp [Wire.available, hrx, hreq]
  | cons r rs => simp [Wire.available, Wire.read, hrx, hreq]


/-! ## The simulated device -/

theorem store_apply (bs : List Nat) :
    ∀ (mem : Nat → Nat) (p j : Nat), Eeprom.store mem p bs j =
      if p ≤ j ∧ j - p < bs.length then bs.getD (j - p) 0 else mem j := by
  induction bs with
  | nil => intro mem p j; simp [Eeprom.store]
  | cons b bs ih =>
    intro mem p j
    unfold Eeprom.store
    rw [ih]
    by_cases hj : j = p
    · subst hj; simp
    · by_cases hlt : p + 1 ≤ j
      · have e : j - p = (j - (p + 1)) + 1 := by omega
        have h1 : (p ≤ j ∧ j - p < (b :: bs).length) ↔ (p + 1 ≤ j ∧ j - (p + 1) < bs.length) := by
          simp only [List.length_cons]; omega
        rw [if_congr h1 rfl rfl, e, List.getD_cons_succ, Function.update_noteq hj]
      · have h1 : ¬ (p + 1 ≤ j ∧ j - (p + 1) < bs.length) := by omega
        have h2 : ¬ (p ≤ j ∧ j - p < (b :: bs).length) := by omega
        rw [if_neg h1, if_neg h2, Function.update_noteq hj]

theorem getD_map_range (f : Nat → Nat) (q i : Nat) (hi : i < q) :
    ((List.range q).map f).getD i 0 = f i := by
  simp [List.getD_eq_getElem?_getD, List.getElem?_map, List.getElem?_range hi]

theorem sim_requested (a q : Nat) (w : Wire Eeprom) (ha : a < 65536) :
    (requested simEeprom a q w).rxBuffer = (List.range q).map (fun i => w.dev.mem (a + i)) ∧
    (requested simEeprom a q w).dev = { mem := w.dev.mem, ptr := a + q } := by
  have hA := address_bytes a ha
  simp [requested, Wire.requestFrom, Wire.endTransmission, Wire.write, Wire.beginTransmission,
    simEeprom, Eeprom.store, hA]

theorem sim_commit_mem (pos : Mem) (a n : Nat) (w : Wire Eeprom) (ha : a < 65536) :
    (commit simEeprom pos a n w).dev.mem =
      Eeprom.store w.dev.mem a ((List.range n).map (fun i => pos i % 256)) := by
  have hA := address_bytes a ha
  rw [commit_dev]
  simp [simEeprom, hA]


theorem sim_update_block (w : Wire Eeprom) (buf : Mem) (a n fuel : Nat) (ha : a < 65536)
    (hn : n ≤ 255) (hbuf : ∀ i, i < n → buf i < 256) (hmem : ∀ i, w.dev.mem i < 256)
    (hfuel : n < fuel) :
    ∃ w1, eeprom_update_block simEeprom fuel buf a n w = Outcome.returned w1 ∧
      ∀ i, i < n → w1.dev.mem (a + i) = buf i := by
  have hmod : n % 256 = n := Nat.mod_eq_of_lt (by omega)
  obtain ⟨w1, ev, hdev, -, -, hupd⟩ :=
    update_block_returned simEeprom fuel buf a n w (by omega)
  rw [hmod] at hdev hupd
  obtain ⟨hrx, hd⟩ := sim_requested a n (eeprom_init w) ha
  have hinit : (eeprom_init w).dev = w.dev := rfl
  rw [hinit] at hrx hd
  refine ⟨_, hupd, ?_⟩
  intro i hi
  by_cases hflag : dirtyFlag n buf 0 0 (requested simEeprom a n (eeprom_init w)).rxBuffer ≠ 0
  · rw [if_pos hflag, sim_commit_mem buf a n w1 ha, store_apply]
    have h1 : a ≤ a + i ∧ a + i - a < ((List.range n).map (fun i => buf i % 256)).length := by
      simp; exact hi
    rw [if_pos h1, Nat.add_sub_cancel_left, getD_map_range _ _ _ hi,
      Nat.mod_eq_of_lt (hbuf i hi)]
  · rw [if_neg hflag, hdev, hd]
    have hz : dirtyFlag n buf 0 0 (requested simEeprom a n (eeprom_init w)).rxBuffer = 0 := by
      simpa using hflag
    rw [hrx] at hz
    have hbytes : ∀ r ∈ (List.range n).map (fun i => w.dev.mem (a + i)), r < 256 := by
      intro r hr
      obtain ⟨j, -, rfl⟩ := List.mem_map.mp hr
      exact hmem _
    have := ((dirtyFlag_eq_zero_iff n buf hbuf _ 0 0 (by norm_num) hbytes).mp hz).2 i
      (by simpa using hi) (by simpa using hi)
    rw [getD_map_range _ _ _ hi] at this
    simpa using this

theorem sim_read_block (w : Wire Eeprom) (out : Mem) (a n fuel : Nat) (ha : a < 65536)
    (hn : n ≤ 255) (hfuel : n < fuel) :
    ∃ w1 out1, eeprom_read_block simEeprom fuel out a n w = Outcome.returned (out1, w1) ∧
      ∀ i, out1 i = if i < n then w.dev.mem (a + i) % 256 else out i := by
  have hmod : n % 256 = n := Nat.mod_eq_of_lt (by omega)
  obtain ⟨w1, ev, h1, -⟩ := read_loop_returned n hn fuel 0 out
    (requested simEeprom a n (eeprom_init w)) (Nat.zero_le _) (by omega)
  obtain ⟨hrx, -⟩ := sim_requested a n (eeprom_init w) ha
  have hinit : (eeprom_init w).dev = w.dev := rfl
  rw [hinit] at hrx
  refine ⟨w1, received n 0 out (requested simEeprom a n (eeprom_init w)).rxBuffer, ?_, ?_⟩
  · show eeprom_read_block_loop n fuel 0 out
      (requested simEeprom a (n % 256) (eeprom_init w)) = _
    rw [hmod]; exact h1
  · intro i
    rw [received_apply, hrx]
    by_cases hi : i < n
    · have h2 : 0 ≤ i ∧ i < n ∧
          i - 0 < ((List.range n).map (fun i => w.dev.mem (a + i))).length := by
        simp; exact hi
      rw [if_pos h2, if_pos hi, Nat.sub_zero, getD_map_range _ _ _ hi]
    · have h2 : ¬ (0 ≤ i ∧ i < n ∧
          i - 0 < ((List.range n).map (fun i => w.dev.mem (a + i))).length) := by
        simp; omega
      rw [if_neg h2, if_neg hi]

/-! ## Transactions and the delay scan of a log -/

theorem issued_of_log {σ : Type} (w w1 : Wire σ) (X : List Event) (h : w1.log = w.log ++ X) :
    issued w w1 = X := by
  simp [issued, h]

theorem opened_local (ev t : List Event) (h : busTrace ev = []) :
    opened (ev ++ t) = opened t := by
  induction ev with
  | nil => rfl
  | cons e ev ih =>
    have h1 : Event.onBus e = false ∧ busTrace ev = [] := by
      simp only [busTrace, List.filter_cons] at h
      cases he : Event.onBus e with
      | true => simp [he] at h
      | false => simp [he] at h; exact ⟨rfl, by simpa [busTrace] using h⟩
    cases e <;> simp [Event.onBus] at h1 <;> simp [opened, ih h1]

theorem writesAfter_writes (bs : List Nat) (t : List Event) (ht : writesAfter t = []) :
    writesAfter (bs.map Event.write ++ t) = bs := by
  induction bs with
  | nil => simpa using ht
  | cons b bs ih => simp [writesAfter, ih]

theorem opened_writes (bs : List Nat) (t : List Event) :
    opened (bs.map Event.write ++ t) = opened t := by
  induction bs with
  | nil => rfl
  | cons b bs ih => simp [opened, ih]

theorem blockWrites_eq (data : Mem) (n : Nat) :
    blockWrites data n = ((List.range n).map (fun i => data i % 256)).map Event.write := by
  simp [blockWrites, List.map_map, Function.comp_def]

theorem opened_writeTransaction (pos : Mem) (a n : Nat) :
    opened (writeTransaction pos a n ++ [Event.delay EEPROM_WRITE_DELAY]) =
      [(eeprom_device_address,
        (a >>> 8) % 256 :: (a &&& 0xFF) % 256 :: (List.range n).map (fun i => pos i % 256))] := by
  have e : writeTransaction pos a n ++ [Event.delay EEPROM_WRITE_DELAY] =
      Event.beginTransmission eeprom_device_address :: Event.write ((a >>> 8) % 256) ::
        Event.write ((a &&& 0xFF) % 256) ::
          (((List.range n).map (fun i => pos i % 256)).map Event.write ++
            [Event.endTransmission, Event.delay EEPROM_WRITE_DELAY]) := by
    simp [writeTransaction, blockWrites_eq]
  rw [e]
  show (eeprom_device_address, (a >>> 8) % 256 :: (a &&& 0xFF) % 256 ::
      writesAfter (((List.range n).map (fun i => pos i % 256)).map Event.write ++
        [Event.endTransmission, Event.delay EEPROM_WRITE_DELAY])) ::
    opened (((List.range n).map (fun i => pos i % 256)).map Event.write ++
        [Event.endTransmission, Event.delay EEPROM_WRITE_DELAY]) = _
  rw [writesAfter_writes _ _ (by rfl), opened_writes]
  rfl

theorem opened_prologue (a q : Nat) (ev t : List Event) (h : busTrace ev = []) :
    opened ([Event.begin] ++ setPointer a ++ [Event.requestFrom eeprom_device_address q] ++
        ev ++ t) =
      (eeprom_device_address, [(a >>> 8) % 256, (a &&& 0xFF) % 256]) :: opened t := by
  show (eeprom_device_address, [(a >>> 8) % 256, (a &&& 0xFF) % 256]) :: opened (ev ++ t) = _
  rw [opened_local ev t h]

theorem scan_append (s : Scan) (xs ys : List Event) :
    Scan.run s (xs ++ ys) = Scan.run (Scan.run s xs) ys := by
  simp [Scan.run, List.foldl_append]

theorem scan_local (s : Scan) (ev : List Event) (h : busTrace ev = []) :
    Scan.run s ev = s := by
  induction ev with
  | nil => rfl
  | cons e ev ih =>
    have h1 : Event.onBus e = false ∧ busTrace ev = [] := by
      simp only [busTrace, List.filter_cons] at h
      cases he : Event.onBus e with
      | true => simp [he] at h
      | false => simp [he] at h; exact ⟨rfl, by simpa [busTrace] using h⟩
    have e1 : Scan.run s (e :: ev) = Scan.run (Scan.step s e) ev := rfl
    rw [e1]
    cases e <;> simp [Event.onBus] at h1 <;> simpa [Scan.step] using ih h1

theorem scan_writes (bs : List Nat) :
    ∀ s : Scan, Scan.run s (bs.map Event.write) = { s with cnt := s.cnt + bs.length } := by
  induction bs with
  | nil => intro s; rfl
  | cons b bs ih =>
    intro s
    have e1 : Scan.run s ((b :: bs).map Event.write) =
      Scan.run (Scan.step s (Event.write b)) (bs.map Event.write) := rfl
    rw [e1, ih]
    simp [Scan.step, Nat.add_assoc, Nat.add_comm 1]

theorem scan_setPointer (s : Scan) (a : Nat) (h : s.good) :
    (Scan.run s (setPointer a)).good := by
  obtain ⟨c, p, o⟩ := s
  obtain ⟨h1, h2⟩ := h
  simp only at h1 h2
  subst h1 h2
  simp [Scan.run, setPointer, Scan.step, Scan.good]

theorem scan_request (s : Scan) (a q : Nat) (h : s.good) :
    (Scan.run s [Event.requestFrom a q]).good := by
  obtain ⟨c, p, o⟩ := s
  obtain ⟨h1, h2⟩ := h
  simp only at h1 h2
  subst h1 h2
  simp [Scan.run, Scan.step, Scan.good]

theorem scan_writeTransaction (s : Scan) (pos : Mem) (a n : Nat) (h : s.good) :
    (Scan.run s (writeTransaction pos a n ++ [Event.delay EEPROM_WRITE_DELAY])).good := by
  obtain ⟨c, p, o⟩ := s
  obtain ⟨h1, h2⟩ := h
  simp only at h1 h2
  subst h1 h2
  have e : writeTransaction pos a n ++ [Event.delay EEPROM_WRITE_DELAY] =
      [Event.beginTransmission eeprom_device_address, Event.write ((a >>> 8) % 256),
        Event.write ((a &&& 0xFF) % 256)] ++
      (((List.range n).map (fun i => pos i % 256)).map Event.write ++
        [Event.endTransmission, Event.delay EEPROM_WRITE_DELAY]) := by
    simp [writeTransaction, blockWrites_eq]
  rw [e, scan_append, scan_append, scan_writes]
  simp [Scan.run, Scan.step, Scan.good]


/-! ## What `eeprom_update_block` issues -/

theorem update_block_issued {σ : Type} (D : Device σ) (fuel : Nat) (pos : Mem)
    (a n : Nat) (w : Wire σ) (hf : n % 256 < fuel) :
    ∃ w1 ev, eeprom_update_block D fuel pos a n w = Outcome.returned w1 ∧
      busTrace ev = [] ∧
      issued w w1 = [Event.begin] ++ setPointer a ++
        [Event.requestFrom eeprom_device_address (n % 256)] ++ ev ++
        (if dirtyFlag n pos 0 0 (requested D a (n % 256) (eeprom_init w)).rxBuffer ≠ 0
          then writeTransaction pos a n ++ [Event.delay EEPROM_WRITE_DELAY] else []) ∧
      (dirtyFlag n pos 0 0 (requested D a (n % 256) (eeprom_init w)).rxBuffer = 0 →
        w1.dev = (requested D a (n % 256) (eeprom_init w)).dev) := by
  obtain ⟨w1, ev, hdev, hlog, hev, hupd⟩ := update_block_returned D fuel pos a n w hf
  have hreq := requested_log D a (n % 256) (eeprom_init w)
  have hinit : (eeprom_init w).log = w.log ++ [Event.begin] := rfl
  refine ⟨_, ev, hupd, hev, ?_, ?_⟩
  · apply issued_of_log
    by_cases hflag : dirtyFlag n pos 0 0 (requested D a (n % 256) (eeprom_init w)).rxBuffer ≠ 0
    · rw [if_pos hflag, if_pos hflag, commit_log, hlog, hreq, hinit]; simp
    · rw [if_neg hflag, if_neg hflag, hlog, hreq, hinit]; simp
  · intro hz
    rw [if_neg (by simpa using hz)]
    exact hdev

theorem busTrace_prologue (a q : Nat) (ev : List Event) (h : busTrace ev = []) :
    busTrace ([Event.begin] ++ setPointer a ++
        [Event.requestFrom eeprom_device_address q] ++ ev) =
      setPointer a ++ [Event.requestFrom eeprom_device_address q] := by
  rw [busTrace_append, h]
  rfl

theorem shift_byte (a : Nat) (ha : a < 65536) : (a >>> 8) % 256 = a >>> 8 := by
  rw [Nat.shiftRight_eq_div_pow]
  omega

theorem mask_byte (a : Nat) : (a &&& 0xFF) % 256 = a &&& 0xFF := by
  have h1 : a &&& 0xFF = a % 256 := Nat.and_pow_two_sub_one_eq_mod a 8
  rw [h1, Nat.mod_mod]

theorem dataWrites_update (pos : Mem) (a n : Nat) (ev : List Event) (h : busTrace ev = [])
    (hn : 0 < n) :
    dataWrites ([Event.begin] ++ setPointer a ++
        [Event.requestFrom eeprom_device_address (n % 256)] ++ ev ++
        (writeTransaction pos a n ++ [Event.delay EEPROM_WRITE_DELAY])) =
      [(eeprom_device_address,
        (a >>> 8) % 256 :: (a &&& 0xFF) % 256 :: (List.range n).map (fun i => pos i % 256))] := by
  rw [dataWrites, opened_prologue a (n % 256) ev _ h, opened_writeTransaction]
  simp [List.filter_cons]
  omega

theorem dataWrites_clean (a q : Nat) (ev : List Event) (h : busTrace ev = []) :
    dataWrites ([Event.begin] ++ setPointer a ++
        [Event.requestFrom eeprom_device_address q] ++ ev ++ []) = [] := by
  rw [dataWrites, opened_prologue a q ev _ h]
  rfl

theorem map_bytes (pos : Mem) (n : Nat) (h : ∀ i, i < n → pos i < 256) :
    (List.range n).map (fun i => pos i % 256) = (List.range n).map pos := by
  apply List.map_congr_left
  intro i hi
  exact Nat.mod_eq_of_lt (h i (List.mem_range.mp hi))

/-! ## Sequences of calls -/

theorem call_good {σ : Type} (D : Device σ) (fuel : Nat) (s : Scan) (c : Call) (w : Wire σ)
    (h : (Scan.run s w.log).good) : (Scan.run s (Call.run D fuel w c).val.log).good := by
  have hb : busTrace [Event.begin] = [] := rfl
  cases c with
  | write_byte pos value =>
    show (Scan.run s (eeprom_write_byte D pos value w).log).good
    rw [write_byte_log, scan_append]
    generalize Scan.run s w.log = s1 at h
    obtain ⟨c, p, o⟩ := s1
    obtain ⟨h1, h2⟩ := h
    simp only at h1 h2
    subst h1 h2
    simp [Scan.run, Scan.step, Scan.good, EEPROM_WRITE_DELAY]
  | read_byte pos =>
    show (Scan.run s (eeprom_read_byte D pos w).2.log).good
    rw [read_byte_log, scan_append, scan_append, scan_append]
    have hl : busTrace (Event.available ::
        if (requested D pos 1 w).rxBuffer = [] then [] else [Event.read]) = [] := by
      split <;> rfl
    rw [scan_local _ _ hl]
    exact scan_request _ _ _ (scan_setPointer _ _ h)
  | update_block pos dst n =>
    show (Scan.run s (eeprom_update_block D fuel pos dst n w).val.log).good
    obtain ⟨ev, tail, hlog, hev, htail⟩ := update_block_log D fuel pos dst n w
    rw [hlog, scan_append, scan_append, scan_append, scan_append, scan_append,
      scan_local _ _ hb, scan_local _ ev hev]
    have h3 := scan_request _ eeprom_device_address (n % 256) (scan_setPointer _ dst h)
    rcases htail with h0 | h1
    · rw [h0]; exact h3
    · rw [h1]; exact scan_writeTransaction _ _ _ _ h3
  | read_block pos dst n =>
    have e : (Call.run D fuel w (Call.read_block pos dst n)).val.log =
        (eeprom_read_block D fuel pos dst n w).val.2.log := by
      simp only [Call.run]
      cases eeprom_read_block D fuel pos dst n w <;> rfl
    rw [e]
    obtain ⟨ev, hlog, hev⟩ := read_block_log D fuel pos dst n w
    rw [hlog, scan_append, scan_append, scan_append, scan_append,
      scan_local _ _ hb, scan_local _ ev hev]
    exact scan_request _ eeprom_device_address (n % 256) (scan_setPointer _ dst h)

theorem runCalls_good {σ : Type} (D : Device σ) (fuel : Nat) (s : Scan) :
    ∀ (cs : List Call) (w : Wire σ), (Scan.run s w.log).good →
      (Scan.run s (runCalls D fuel cs w).log).good := by
  intro cs
  induction cs with
  | nil => intro w h; exact h
  | cons c cs ih =>
    intro w h
    have hc := call_good D fuel s c w h
    unfold runCalls
    cases hr : Call.run D fuel w c with
    | returned w1 =>
      rw [hr] at hc
      exact ih w1 hc
    | running w1 =>
      rw [hr] at hc
      exact hc

/-! ## The properties of the driver -/

/-- C1, byte round trip.  For every 16-bit address `a` and byte `v`, and from
every state of the transport, `eeprom_write_byte a v` followed by
`eeprom_read_byte a` against the simulated device returns `v`. -/
theorem write_byte_read_byte_round_trip (w : Wire Eeprom) (a v : Nat) (ha : a < 65536)
    (hv : v < 256) :
    (eeprom_read_byte simEeprom a (eeprom_write_byte simEeprom a v w)).1 = v := by
  have hA := address_bytes a ha
  simp [eeprom_read_byte, eeprom_write_byte, Wire.beginTransmission, Wire.write,
    Wire.endTransmission, Wire.requestFrom, Wire.available, Wire.read, delay, simEeprom,
    Eeprom.store, hA, List.range_succ, Nat.mod_eq_of_lt hv]

/-- Witness of C1 at address `0x1234` and value `0xA5`. -/
theorem write_byte_read_byte_round_trip_witness :
    0x1234 < 65536 ∧ 0xA5 < 256 ∧
    (eeprom_read_byte simEeprom 0x1234
      (eeprom_write_byte simEeprom 0x1234 0xA5
        (Wire.fresh { mem := fun _ => 0xFF, ptr := 0 }))).1 = 0xA5 :=
  ⟨by decide, by decide,
    write_byte_read_byte_round_trip (Wire.fresh { mem := fun _ => 0xFF, ptr := 0 })
      0x1234 0xA5 (by decide) (by decide)⟩

/-- C2, block round trip.  For every length `1 ≤ n ≤ 30`, 16-bit address `a`,
source buffer of `n` bytes and device content (bytes), with fuel for the
`n` iterations, `eeprom_update_block buf a n` returns, the following
`eeprom_read_block out a n` returns, and `out[0..n)` equals `buf[0..n)`,
whether or not the update wrote. -/
theorem update_block_read_block_round_trip (w : Wire Eeprom) (buf out : Mem) (a n fuel : Nat) (ha : a < 65536)
    (hn1 : 1 ≤ n) (hn : n ≤ 30) (hbuf : ∀ i, i < n → buf i < 256)
    (hmem : ∀ i, w.dev.mem i < 256) (hfuel : n < fuel) :
    ∃ w1 w2 out1, eeprom_update_block simEeprom fuel buf a n w = Outcome.returned w1 ∧
      eeprom_read_block simEeprom fuel out a n w1 = Outcome.returned (out1, w2) ∧
      ∀ i, i < n → out1 i = buf i := by
  obtain ⟨w1, h1, h2⟩ := sim_update_block w buf a n fuel ha (by omega) hbuf hmem hfuel
  obtain ⟨w2, out1, h3, h4⟩ := sim_read_block w1 out a n fuel ha (by omega) hfuel
  refine ⟨w1, w2, out1, h1, h3, ?_⟩
  intro i hi
  rw [h4, if_pos hi, h2 i hi, Nat.mod_eq_of_lt (hbuf i hi)]

/-- Witness of C2: three bytes at address `0x0100` of a device full of `0xFF`. -/
theorem update_block_read_block_round_trip_witness :
    ∃ w1 w2 out1,
      eeprom_update_block simEeprom 4 (fun i => i + 1) 0x0100 3
        (Wire.fresh { mem := fun _ => 0xFF, ptr := 0 }) = Outcome.returned w1 ∧
      eeprom_read_block simEeprom 4 (fun _ => 0) 0x0100 3 w1 = Outcome.returned (out1, w2) ∧
      ∀ i, i < 3 → out1 i = (fun i => i + 1) i :=
  update_block_read_block_round_trip (Wire.fresh { mem := fun _ => 0xFF, ptr := 0 })
    (fun i => i + 1) (fun _ => 0) 0x0100 3 4 (by decide) (by decide) (by decide)
    (fun i hi => by show i + 1 < 256; omega) (fun _ => by show 255 < 256; decide) (by decide)

/-- C3, write suppression.  For every 16-bit address `a`, length `n` and
buffer, if the simulated device holds `buf[0..n)` at `a`, then
`eeprom_update_block buf a n` returns (with fuel for the bytes requested);
the bus trace of the call is the address transaction and the read request
only, so there is no data-carrying write transaction and no delay; and the
device memory is unchanged. -/
theorem update_block_write_suppression (w : Wire Eeprom) (buf : Mem) (a n fuel : Nat) (ha : a < 65536)
    (hsame : ∀ i, i < n → w.dev.mem (a + i) = buf i) (hfuel : n % 256 < fuel) :
    ∃ w1, eeprom_update_block simEeprom fuel buf a n w = Outcome.returned w1 ∧
      busTrace (issued w w1) =
        setPointer a ++ [Event.requestFrom eeprom_device_address (n % 256)] ∧
      dataWrites (issued w w1) = [] ∧ (∀ ms, Event.delay ms ∉ issued w w1) ∧
      w1.dev.mem = w.dev.mem := by
  obtain ⟨w1, ev, hupd, hev, hiss, hdev⟩ := update_block_issued simEeprom fuel buf a n w hfuel
  obtain ⟨hrx, hd⟩ := sim_requested a (n % 256) (eeprom_init w) ha
  have hinit : (eeprom_init w).dev = w.dev := rfl
  rw [hinit] at hrx hd
  have hle : n % 256 ≤ n := Nat.mod_le _ _
  have hz : dirtyFlag n buf 0 0 (requested simEeprom a (n % 256) (eeprom_init w)).rxBuffer = 0 := by
    rw [hrx]
    apply dirtyFlag_same
    intro i hi _
    have hi2 : i < n % 256 := by simpa using hi
    rw [getD_map_range _ _ _ hi2, Nat.zero_add]
    exact hsame i (by omega)
  rw [if_neg (by simpa using hz), List.append_nil] at hiss
  have hbus := busTrace_prologue a (n % 256) ev hev
  refine ⟨w1, hupd, ?_, ?_, ?_, ?_⟩
  · rw [hiss]; exact hbus
  · have := opened_prologue a (n % 256) ev [] hev
    rw [List.append_nil] at this
    rw [dataWrites, hiss, this]
    rfl
  · intro ms hms
    have h1 : Event.delay ms ∈ busTrace (issued w w1) :=
      List.mem_filter.mpr ⟨hms, rfl⟩
    rw [hiss, hbus] at h1
    simp [setPointer] at h1
  · rw [hdev hz, hd]

/-- Witness of C3: the device already holds the three bytes of the buffer. -/
theorem update_block_write_suppression_witness :
    ∃ w1, eeprom_update_block simEeprom 4 (fun i => (0x0100 + i) % 7) 0x0100 3
        (Wire.fresh { mem := fun i => i % 7, ptr := 0 }) = Outcome.returned w1 ∧
      busTrace (issued (Wire.fresh { mem := fun i => i % 7, ptr := 0 }) w1) =
        setPointer 0x0100 ++ [Event.requestFrom eeprom_device_address (3 % 256)] ∧
      dataWrites (issued (Wire.fresh { mem := fun i => i % 7, ptr := 0 }) w1) = [] ∧
      (∀ ms, Event.delay ms ∉ issued (Wire.fresh { mem := fun i => i % 7, ptr := 0 }) w1) ∧
      w1.dev.mem = (Wire.fresh { mem := fun i => i % 7, ptr := 0 } : Wire Eeprom).dev.mem :=
  update_block_write_suppression (Wire.fresh { mem := fun i => i % 7, ptr := 0 })
    (fun i => (0x0100 + i) % 7) 0x0100 3 4 (by decide) (fun _ _ => rfl) (by decide)

/-- C4, write-then-modify.  For every device, 16-bit address `a`, length `n`
and buffer of `n` bytes, if the read request is answered with `n` bytes of
which at least one differs from the corresponding byte of the buffer, then
`eeprom_update_block buf a n` returns having issued exactly one
data-carrying write transaction, with payload `[a >> 8, a & 0xFF]` followed
by `buf[0]`, ..., `buf[n-1]`, and the event right after the
`endTransmission` of that transaction is `delay EEPROM_WRITE_DELAY`, the
last event of the call.  (The request is for `n mod 256` bytes, so a
transport can answer it with `n` bytes only when `n ≤ 255`.) -/
theorem update_block_writes_once_then_delays {σ : Type} (D : Device σ) (w : Wire σ) (buf : Mem) (a n fuel : Nat)
    (ha : a < 65536) (hfuel : n < fuel)
    (hlen : (requested D a (n % 256) (eeprom_init w)).rxBuffer.length = n)
    (hrx : ∀ r ∈ (requested D a (n % 256) (eeprom_init w)).rxBuffer, r < 256)
    (hbuf : ∀ i, i < n → buf i < 256)
    (hdiff : ∃ i, i < n ∧ (requested D a (n % 256) (eeprom_init w)).rxBuffer.getD i 0 ≠ buf i) :
    ∃ w1 pre, eeprom_update_block D fuel buf a n w = Outcome.returned w1 ∧
      issued w w1 = pre ++ (writeTransaction buf a n ++ [Event.delay EEPROM_WRITE_DELAY]) ∧
      busTrace pre = setPointer a ++ [Event.requestFrom eeprom_device_address n] ∧
      dataWrites (issued w w1) =
        [(eeprom_device_address, (a >>> 8) :: (a &&& 0xFF) :: (List.range n).map buf)] := by
  have hle : n % 256 ≤ n := Nat.mod_le _ _
  obtain ⟨w1, ev, hupd, hev, hiss, -⟩ := update_block_issued D fuel buf a n w (by omega)
  have hn : n < 256 := by
    have h1 := requested_rx_length D a (n % 256) (eeprom_init w)
    have h2 : n % 256 < 256 := Nat.mod_lt _ (by norm_num)
    omega
  have hmod : n % 256 = n := Nat.mod_eq_of_lt hn
  obtain ⟨i, hi, hne⟩ := hdiff
  have hflag : dirtyFlag n buf 0 0 (requested D a (n % 256) (eeprom_init w)).rxBuffer ≠ 0 := by
    intro hz
    have := ((dirtyFlag_eq_zero_iff n buf hbuf _ 0 0 (by norm_num) hrx).mp hz).2 i
      (by omega) (by omega)
    rw [Nat.zero_add] at this
    exact hne this
  rw [if_pos hflag] at hiss
  refine ⟨w1, [Event.begin] ++ setPointer a ++
    [Event.requestFrom eeprom_device_address (n % 256)] ++ ev, hupd, hiss, ?_, ?_⟩
  · rw [busTrace_prologue a (n % 256) ev hev, hmod]
  · rw [hiss, dataWrites_update buf a n ev hev (by omega), shift_byte a ha, mask_byte,
      map_bytes buf n hbuf]

/-- Witness of C4: the device answers `[1, 2, 3]`, the buffer holds zeroes. -/
theorem update_block_writes_once_then_delays_witness :
    ∃ w1 pre, eeprom_update_block (mockDevice [1, 2, 3]) 4 (fun _ => 0) 0x0100 3
        (Wire.fresh ()) = Outcome.returned w1 ∧
      issued (Wire.fresh ()) w1 =
        pre ++ (writeTransaction (fun _ => 0) 0x0100 3 ++ [Event.delay EEPROM_WRITE_DELAY]) ∧
      busTrace pre = setPointer 0x0100 ++ [Event.requestFrom eeprom_device_address 3] ∧
      dataWrites (issued (Wire.fresh ()) w1) =
        [(eeprom_device_address,
          (0x0100 >>> 8) :: (0x0100 &&& 0xFF) :: (List.range 3).map (fun _ => 0))] :=
  update_block_writes_once_then_delays (mockDevice [1, 2, 3]) (Wire.fresh ()) (fun _ => 0)
    0x0100 3 4 (by decide) (by decide) (by decide) (by decide)
    (fun _ _ => by show 0 < 256; decide)
    ⟨0, by decide, by decide⟩

/-- C5, sentinel on absent device.  For every device and address, when no
byte is available after the one-byte read request, `eeprom_read_byte`
returns `0xFF` and does not call `Wire.read`; when a byte `b` is available it
returns `b`. -/
theorem read_byte_sentinel {σ : Type} (D : Device σ) (w : Wire σ) (a : Nat) :
    ((requested D a 1 w).rxBuffer = [] →
      (eeprom_read_byte D a w).1 = 0xFF ∧
      Event.read ∉ issued w (eeprom_read_byte D a w).2) ∧
    (∀ b rest, (requested D a 1 w).rxBuffer = b :: rest → b < 256 →
      (eeprom_read_byte D a w).1 = b) := by
  constructor
  · intro hrx
    constructor
    · rw [read_byte_eq]
      simp [Wire.available, hrx]
    · rw [issued_of_log w _ _ (read_byte_log D a w), hrx]
      simp [setPointer]
  · intro b rest hrx hb
    rw [read_byte_eq]
    simp [Wire.available, Wire.read, hrx, Nat.mod_eq_of_lt hb]

/-- Witness of C5: a device that answers nothing, and one that answers `0x42`. -/
theorem read_byte_sentinel_witness :
    (eeprom_read_byte (mockDevice []) 0x0010 (Wire.fresh ())).1 = 0xFF ∧
    Event.read ∉ issued (Wire.fresh ()) (eeprom_read_byte (mockDevice []) 0x0010 (Wire.fresh ())).2 ∧
    (eeprom_read_byte (mockDevice [0x42]) 0x0010 (Wire.fresh ())).1 = 0x42 :=
  ⟨((read_byte_sentinel (mockDevice []) (Wire.fresh ()) 0x0010).1 rfl).1,
    ((read_byte_sentinel (mockDevice []) (Wire.fresh ()) 0x0010).1 rfl).2,
    (read_byte_sentinel (mockDevice [0x42]) (Wire.fresh ()) 0x0010).2 0x42 [] rfl (by decide)⟩

/-- C6, short block read.  For every `n ≤ 255` and `k < n`, when the transport
holds only `k` bytes after the read request, `eeprom_read_block dst a n`
returns (with fuel for the `n` iterations), `dst[i]` is the `i`-th received
byte for every `i < k`, and every position from `k` on keeps the value it had
before the call. -/
theorem read_block_short_answer {σ : Type} (D : Device σ) (w : Wire σ) (dst : Mem) (a n k fuel : Nat)
    (hn : n ≤ 255) (hk : k < n) (hfuel : n < fuel)
    (hlen : (requested D a (n % 256) (eeprom_init w)).rxBuffer.length = k)
    (hrx : ∀ r ∈ (requested D a (n % 256) (eeprom_init w)).rxBuffer, r < 256) :
    ∃ w1 dst1, eeprom_read_block D fuel dst a n w = Outcome.returned (dst1, w1) ∧
      (∀ i, i < k →
        dst1 i = (requested D a (n % 256) (eeprom_init w)).rxBuffer.getD i 0) ∧
      (∀ i, k ≤ i → dst1 i = dst i) := by
  obtain ⟨w1, ev, h1, -⟩ := read_loop_returned n hn fuel 0 dst
    (requested D a (n % 256) (eeprom_init w)) (Nat.zero_le _) (by omega)
  refine ⟨w1, _, h1, ?_, ?_⟩
  · intro i hi
    rw [received_apply, if_pos ⟨Nat.zero_le _, by omega, by omega⟩, Nat.sub_zero]
    apply Nat.mod_eq_of_lt
    apply hrx
    rw [List.getD_eq_getElem _ _ (by omega)]
    exact List.getElem_mem _
  · intro i hi
    rw [received_apply, if_neg (by omega)]

/-- Witness of C6: four bytes requested, the device answers `[7, 8]`. -/
theorem read_block_short_answer_witness :
    ∃ w1 dst1, eeprom_read_block (mockDevice [7, 8]) 5 (fun _ => 0xEE) 0x0100 4
        (Wire.fresh ()) = Outcome.returned (dst1, w1) ∧
      (∀ i, i < 2 →
        dst1 i = (requested (mockDevice [7, 8]) 0x0100 (4 % 256)
          (eeprom_init (Wire.fresh ()))).rxBuffer.getD i 0) ∧
      (∀ i, 2 ≤ i → dst1 i = (fun _ => 0xEE) i) :=
  read_block_short_answer (mockDevice [7, 8]) (Wire.fresh ()) (fun _ => 0xEE) 0x0100 4 2 5
    (by decide) (by decide) (by decide) (by decide) (by decide)

/-- C7, address framing order.  For every device, state of the transport and
16-bit address `a`, `(a >> 8) * 256 + (a & 0xFF) = a`, and each of the four
operations opens at least one transaction, every transaction it opens being
addressed to the device address with `a >> 8` and then `a & 0xFF` as its
first two transmitted bytes.  For the block operations this holds for every
length, buffer and amount of fuel, returned or not. -/
theorem address_framing_order {σ : Type} (D : Device σ) (w : Wire σ) (a : Nat) (ha : a < 65536) :
    (a >>> 8) * 256 + (a &&& 0xFF) = a ∧
    (∀ v, allFramed a (issued w (eeprom_write_byte D a v w))) ∧
    allFramed a (issued w (eeprom_read_byte D a w).2) ∧
    (∀ fuel pos n, allFramed a (issued w (eeprom_update_block D fuel pos a n w).val)) ∧
    (∀ fuel pos n, allFramed a (issued w (eeprom_read_block D fuel pos a n w).val.2)) := by
  have hs := shift_byte a ha
  have hm := mask_byte a
  have hA := address_bytes a ha
  rw [hs, hm] at hA
  refine ⟨hA, ?_, ?_, ?_, ?_⟩
  · intro v
    rw [issued_of_log w _ _ (write_byte_log D a v w), hs, hm]
    constructor
    · simp [opened]
    · intro t ht
      simp [opened, writesAfter] at ht
      subst ht
      exact ⟨rfl, _, rfl⟩
  · rw [issued_of_log w _ _ (read_byte_log D a w)]
    have e : opened (setPointer a ++ [Event.requestFrom eeprom_device_address 1] ++
        (Event.available :: if (requested D a 1 w).rxBuffer = [] then [] else [Event.read])) =
        [(eeprom_device_address, [a >>> 8, a &&& 0xFF])] := by
      split <;> simp [setPointer, opened, writesAfter, hs, hm]
    rw [allFramed, e]
    constructor
    · simp
    · intro t ht
      simp at ht
      subst ht
      exact ⟨rfl, _, rfl⟩
  · intro fuel pos n
    obtain ⟨ev, tail, hlog, hev, htail⟩ := update_block_log D fuel pos a n w
    rw [issued_of_log w _ _ hlog, allFramed, opened_prologue a (n % 256) ev tail hev, hs, hm]
    constructor
    · simp
    · intro t ht
      rcases htail with h0 | h1
      · rw [h0] at ht
        simp [opened] at ht
        subst ht
        exact ⟨rfl, _, rfl⟩
      · rw [h1, opened_writeTransaction, hs, hm] at ht
        simp at ht
        rcases ht with ht | ht
        · subst ht; exact ⟨rfl, _, rfl⟩
        · subst ht; exact ⟨rfl, _, rfl⟩
  · intro fuel pos n
    obtain ⟨ev, hlog, hev⟩ := read_block_log D fuel pos a n w
    have h2 := opened_prologue a (n % 256) ev [] hev
    rw [List.append_nil] at h2
    rw [issued_of_log w _ _ hlog, allFramed, h2, hs, hm]
    constructor
    · simp
    · intro t ht
      simp [opened] at ht
      subst ht
      exact ⟨rfl, _, rfl⟩

/-- Witness of C7 at address `0x1234`. -/
theorem address_framing_order_witness :
    (0x1234 >>> 8) * 256 + (0x1234 &&& 0xFF) = 0x1234 ∧
    (∀ v, allFramed 0x1234
      (issued (Wire.fresh ()) (eeprom_write_byte (mockDevice [1]) 0x1234 v (Wire.fresh ())))) ∧
    allFramed 0x1234
      (issued (Wire.fresh ()) (eeprom_read_byte (mockDevice [1]) 0x1234 (Wire.fresh ())).2) ∧
    (∀ fuel pos n, allFramed 0x1234 (issued (Wire.fresh ())
      (eeprom_update_block (mockDevice [1]) fuel pos 0x1234 n (Wire.fresh ())).val)) ∧
    (∀ fuel pos n, allFramed 0x1234 (issued (Wire.fresh ())
      (eeprom_read_block (mockDevice [1]) fuel pos 0x1234 n (Wire.fresh ())).val.2)) :=
  address_framing_order (mockDevice [1]) (Wire.fresh ()) 0x1234 (by decide)

/-- C8, post-write delay invariant.  For every device, every finite sequence
of calls of the four operations and every amount of fuel, the log produced
from a fresh transport satisfies `postWriteDelayed`: no `beginTransmission`
or `requestFrom` is issued between the close of a data-carrying write
transaction and a `delay EEPROM_WRITE_DELAY`, and no write is left without
its delay.  A write transaction is one that carries data after the two
address bytes; the address transaction of the read path is not one. -/
theorem post_write_delay_invariant {σ : Type} (D : Device σ) (dev : σ) (fuel : Nat) (cs : List Call) :
    postWriteDelayed (runCalls D fuel cs (Wire.fresh dev)).log :=
  runCalls_good D fuel { cnt := 0, pending := false, ok := true } cs (Wire.fresh dev)
    ⟨rfl, rfl⟩

/-- C9, dirty flag over the available bytes only.  For every `n ≤ 255`,
buffer of bytes and transport holding the bytes `r` after the read request,
`eeprom_update_block buf a n` returns, and it issues its write transaction
if and only if `r[i] ≠ buf[i]` for some `i < min n r.length`; in particular
no write is issued when no byte is received. -/
theorem update_block_dirty_iff {σ : Type} (D : Device σ) (w : Wire σ) (buf : Mem) (a n fuel : Nat)
    (hn : n ≤ 255) (hfuel : n < fuel)
    (hrx : ∀ r ∈ (requested D a (n % 256) (eeprom_init w)).rxBuffer, r < 256)
    (hbuf : ∀ i, i < n → buf i < 256) :
    ∃ w1, eeprom_update_block D fuel buf a n w = Outcome.returned w1 ∧
      (dataWrites (issued w w1) ≠ [] ↔
        ∃ i, i < min n (requested D a (n % 256) (eeprom_init w)).rxBuffer.length ∧
          (requested D a (n % 256) (eeprom_init w)).rxBuffer.getD i 0 ≠ buf i) ∧
      ((requested D a (n % 256) (eeprom_init w)).rxBuffer = [] →
        dataWrites (issued w w1) = []) := by
  have hmod : n % 256 = n := Nat.mod_eq_of_lt (by omega)
  obtain ⟨w1, ev, hupd, hev, hiss, -⟩ := update_block_issued D fuel buf a n w (by omega)
  have hiff := dirtyFlag_eq_zero_iff n buf hbuf
    (requested D a (n % 256) (eeprom_init w)).rxBuffer 0 0 (by norm_num) hrx
  have key : dataWrites (issued w w1) ≠ [] ↔
      ∃ i, i < min n (requested D a (n % 256) (eeprom_init w)).rxBuffer.length ∧
        (requested D a (n % 256) (eeprom_init w)).rxBuffer.getD i 0 ≠ buf i := by
    by_cases hflag : dirtyFlag n buf 0 0 (requested D a (n % 256) (eeprom_init w)).rxBuffer ≠ 0
    · have hex : ∃ i, i < min n (requested D a (n % 256) (eeprom_init w)).rxBuffer.length ∧
          (requested D a (n % 256) (eeprom_init w)).rxBuffer.getD i 0 ≠ buf i := by
        by_contra hno
        apply hflag
        apply hiff.mpr
        refine ⟨rfl, ?_⟩
        intro i hi hin
        by_contra hne
        exact hno ⟨i, by rw [Nat.zero_add] at hin; omega, by rwa [Nat.zero_add] at hne⟩
      have hpos : 0 < n := by
        obtain ⟨i, hi, -⟩ := hex
        omega
      rw [if_pos hflag] at hiss
      rw [hiss, dataWrites_update buf a n ev hev hpos]
      exact ⟨fun _ => hex, fun _ => by simp⟩
    · rw [if_neg hflag] at hiss
      rw [hiss, dataWrites_clean a (n % 256) ev hev]
      constructor
      · intro h; exact absurd rfl h
      · rintro ⟨i, hi, hne⟩
        have hz : dirtyFlag n buf 0 0 (requested D a (n % 256) (eeprom_init w)).rxBuffer = 0 := by
          simpa using hflag
        have := (hiff.mp hz).2 i (by omega) (by omega)
        rw [Nat.zero_add] at this
        exact absurd this hne
  refine ⟨w1, hupd, key, ?_⟩
  intro hempty
  by_contra hne
  obtain ⟨i, hi, -⟩ := key.mp hne
  rw [hempty] at hi
  simp at hi

/-- Witness of C9: three bytes compared against an answer of two bytes. -/
theorem update_block_dirty_iff_witness :
    ∃ w1, eeprom_update_block (mockDevice [1, 2]) 4 (fun _ => 1) 0x0100 3 (Wire.fresh ()) =
        Outcome.returned w1 ∧
      (dataWrites (issued (Wire.fresh ()) w1) ≠ [] ↔
        ∃ i, i < min 3 (requested (mockDevice [1, 2]) 0x0100 (3 % 256)
            (eeprom_init (Wire.fresh ()))).rxBuffer.length ∧
          (requested (mockDevice [1, 2]) 0x0100 (3 % 256)
            (eeprom_init (Wire.fresh ()))).rxBuffer.getD i 0 ≠ (fun _ => 1) i) ∧
      ((requested (mockDevice [1, 2]) 0x0100 (3 % 256)
          (eeprom_init (Wire.fresh ()))).rxBuffer = [] →
        dataWrites (issued (Wire.fresh ()) w1) = []) :=
  update_block_dirty_iff (mockDevice [1, 2]) (Wire.fresh ()) (fun _ => 1) 0x0100 3 4
    (by decide) (by decide) (by decide) (fun _ _ => by show 1 < 256; decide)

/-- C10 as stated fails: with `n = 256` the 8-bit counter never reaches `n`,
so `eeprom_read_block` does not return whatever the fuel, and the read
request is for `(byte)256 = 0` bytes, not for 256. -/
theorem read_block_256_never_returns :
    (¬ ∃ fuel, (eeprom_read_block (mockDevice []) fuel (fun _ => 0) 0 256
      (Wire.fresh ())).isReturned = true) ∧
    busTrace (eeprom_read_block (mockDevice []) 0 (fun _ => 0) 0 256
      (Wire.fresh ())).val.2.log =
      setPointer 0 ++ [Event.requestFrom eeprom_device_address 0] := by
  refine ⟨?_, by decide⟩
  rintro ⟨fuel, h⟩
  have := read_loop_running 256 (Nat.le_refl _) fuel 0 (fun _ => 0)
    (requested (mockDevice []) 0 (256 % 256) (eeprom_init (Wire.fresh ()))) (by norm_num)
  have e : eeprom_read_block (mockDevice []) fuel (fun _ => 0) 0 256 (Wire.fresh ()) =
    eeprom_read_block_loop 256 fuel 0 (fun _ => 0)
      (requested (mockDevice []) 0 (256 % 256) (eeprom_init (Wire.fresh ()))) := rfl
  rw [e, this] at h
  exact Bool.false_ne_true h

/-- C10, amended.  For every length `n ≤ 255`, device and state of the
transport, `eeprom_read_block dst a n` returns once it has fuel for the `n`
iterations and the final test; the loop performs exactly `n` iterations (one
call of `Wire.available` each), and the bus trace is the address transaction
followed by the request for exactly `n` bytes. -/
theorem read_block_terminates_up_to_255 {σ : Type} (D : Device σ) (w : Wire σ) (pos : Mem) (a n fuel : Nat)
    (hn : n ≤ 255) (hfuel : n < fuel) :
    ∃ w1 pos1, eeprom_read_block D fuel pos a n w = Outcome.returned (pos1, w1) ∧
      (issued w w1).count Event.available = n ∧
      busTrace (issued w w1) =
        setPointer a ++ [Event.requestFrom eeprom_device_address n] := by
  have hmod : n % 256 = n := Nat.mod_eq_of_lt (by omega)
  obtain ⟨w1, ev, h1, -, hlog, hev, hcount⟩ := read_loop_returned n hn fuel 0 pos
    (requested D a (n % 256) (eeprom_init w)) (Nat.zero_le _) (by omega)
  have hreq := requested_log D a (n % 256) (eeprom_init w)
  have hinit : (eeprom_init w).log = w.log ++ [Event.begin] := rfl
  have hiss : issued w w1 = [Event.begin] ++ setPointer a ++
      [Event.requestFrom eeprom_device_address (n % 256)] ++ ev := by
    apply issued_of_log
    rw [hlog, hreq, hinit]; simp
  refine ⟨w1, _, h1, ?_, ?_⟩
  · rw [hiss, List.count_append, hcount]
    simp [setPointer]
  · rw [hiss, busTrace_prologue a (n % 256) ev hev, hmod]

/-- Witness of the amended C10 at the largest length, `n = 255`. -/
theorem read_block_terminates_up_to_255_witness :
    ∃ w1 pos1, eeprom_read_block (mockDevice [9]) 256 (fun _ => 0) 0x0100 255
        (Wire.fresh ()) = Outcome.returned (pos1, w1) ∧
      (issued (Wire.fresh ()) w1).count Event.available = 255 ∧
      busTrace (issued (Wire.fresh ()) w1) =
        setPointer 0x0100 ++ [Event.requestFrom eeprom_device_address 255] :=
  read_block_terminates_up_to_255 (mockDevice [9]) (Wire.fresh ()) (fun _ => 0) 0x0100 255
    256 (by decide) (by decide)

end EepromI2c
